import Mathlib

/-!
Shallow embedding of the kd3 library (src/kd3/kdtree.c, kdtree.h): a balanced
3-D k-d tree with median-split construction over a point cache, an arena of
2n-1 nodes, a domain-pruning box search, and a reusable result iterator.

Doubles are modelled as rationals: the tree code only copies and compares
coordinates (no arithmetic), and `kdtree_search` merely forms `center ± apothem`,
which is mirrored verbatim.  Finite doubles all lie in [-DBL_MAX, DBL_MAX];
where the code's initial search domain uses that constant, theorems carry the
corresponding bound on input coordinates.
-/

namespace KD3

/-- Embeds `struct data_point`: cached coordinates plus the original index. -/
structure data_point where
  x : ℚ
  y : ℚ
  z : ℚ
  idx : ℕ
  deriving DecidableEq, Repr

/-- Out-of-range reads never happen in verified executions; `List.getD` needs a
default element. -/
def dp0 : data_point := ⟨0, 0, 0, 0⟩

/-- Embeds `tree->points[i]` (arrays are modelled as lists indexed from 0). -/
def getPoint (pts : List data_point) (i : ℕ) : data_point := pts.getD i dp0

/-- Embeds `struct boundaries`. -/
structure boundaries where
  min : ℚ
  max : ℚ
  deriving DecidableEq, Repr

/-- Embeds `struct space`: `struct boundaries dim[3]`. -/
structure space where
  d0 : boundaries
  d1 : boundaries
  d2 : boundaries
  deriving DecidableEq, Repr

/-- Embeds `s.dim[a]`. -/
def space.dim (s : space) (a : ℕ) : boundaries :=
  if a = 0 then s.d0 else if a = 1 then s.d1 else s.d2

/-- Embeds `s.dim[a].max = v`. -/
def space.setMax (s : space) (a : ℕ) (v : ℚ) : space :=
  if a = 0 then { s with d0 := { s.d0 with max := v } }
  else if a = 1 then { s with d1 := { s.d1 with max := v } }
  else { s with d2 := { s.d2 with max := v } }

/-- Embeds `s.dim[a].min = v`. -/
def space.setMin (s : space) (a : ℕ) (v : ℚ) : space :=
  if a = 0 then { s with d0 := { s.d0 with min := v } }
  else if a = 1 then { s with d1 := { s.d1 with min := v } }
  else { s with d2 := { s.d2 with min := v } }

/-- Embeds `struct tree_node`: a leaf holds a point-cache slot (`idx`), a branch holds
a split value and two children.  In C the two are one struct discriminated by
`left == right == NULL`. -/
inductive tree_node where
  | leaf (idx : ℕ)
  | branch (split : ℚ) (left right : tree_node)
  deriving DecidableEq, Repr

/-- Number of nodes of a subtree = number of `_next_node` arena allocations
performed while building it. -/
def tree_node.numNodes : tree_node → ℕ
  | .leaf _ => 1
  | .branch _ l r => 1 + l.numNodes + r.numNodes

/-- Number of leaf nodes. -/
def tree_node.numLeaves : tree_node → ℕ
  | .leaf _ => 1
  | .branch _ l r => l.numLeaves + r.numLeaves

/-- Number of branch nodes. -/
def tree_node.numBranches : tree_node → ℕ
  | .leaf _ => 0
  | .branch _ l r => 1 + l.numBranches + r.numBranches

/-- The point-cache slots of the leaves, in left-to-right tree order. -/
def tree_node.leafList : tree_node → List ℕ
  | .leaf i => [i]
  | .branch _ l r => l.leafList ++ r.leafList

/-- The coordinate of a point on axis `a` (0 = x, 1 = y, 2 = z), as selected by
`(axis == 0) ? point->x : ((axis == 1) ? point->y : point->z)` and by the
`func_select` comparator table. -/
def coord (a : ℕ) (p : data_point) : ℚ :=
  if a = 0 then p.x else if a = 1 then p.y else p.z

/-- The ordering used by `qsort` with `cmp_x` / `cmp_y` / `cmp_z`. -/
def axis_le (a : ℕ) (p q : data_point) : Prop := coord a p ≤ coord a q

instance (a : ℕ) : DecidableRel (axis_le a) :=
  fun p q => inferInstanceAs (Decidable (coord a p ≤ coord a q))

instance (a : ℕ) : IsTotal data_point (axis_le a) :=
  ⟨fun p q => le_total (coord a p) (coord a q)⟩

instance (a : ℕ) : IsTrans data_point (axis_le a) :=
  ⟨fun _ _ _ h h' => le_trans h h'⟩

/-- The sub-array `points[f .. f+len-1]`. -/
def subrange (pts : List data_point) (f len : ℕ) : List data_point :=
  (pts.drop f).take len

/-- Embeds `qsort(tree->points + idx_from, count, sizeof(struct data_point),
func_select[axis])`: sort the sub-array `[f, f+len)` in place by the axis
coordinate (tie order is unspecified in C; the model fixes one). -/
def sortSubrange (pts : List data_point) (f len a : ℕ) : List data_point :=
  pts.take f ++ List.insertionSort (axis_le a) (subrange pts f len) ++ pts.drop (f + len)

/-- Embeds `_build_kdtree(idx_from, idx_to, depth, tree)`.  The point cache is threaded
as explicit state; nodes are returned as values (node-arena allocation order is
recovered by `tree_node.numNodes`).  The C recursion terminates because
`idx_to - idx_from` shrinks; the model makes that structural with a fuel
parameter, always called with `fuel ≥ idx_to - idx_from` (the fuel-exhausted
branch coincides with the `count == 1` case and is never otherwise reached). -/
def build_kdtree (fuel : ℕ) (pts : List data_point) (f t d : ℕ) :
    tree_node × List data_point :=
  match fuel with
  | 0 => (.leaf f, pts)
  | fuel + 1 =>
    let count := t - f + 1
    if count = 1 then (.leaf f, pts)
    else
      let axis := d % 3
      let mid := f + (t - f) / 2
      let pts1 := sortSubrange pts f count axis
      let split := coord axis (getPoint pts1 mid)
      let res_l := build_kdtree fuel pts1 f mid (d + 1)
      let res_r := build_kdtree fuel res_l.2 (mid + 1) t (d + 1)
      (.branch split res_l.1 res_r.1, res_r.2)

/-- The `kdtree` record (`count`, `max_nodes`, the point cache and the root;
`next_node` is the bump cursor, equal after a build to the number of nodes of
the root, and the arena contents are the nodes themselves). -/
structure kdtree where
  count : ℕ
  max_nodes : ℕ
  points : List data_point
  root : tree_node
  deriving Repr

/-- The cache-fill loop of `kdtree_build`:
`for (i = 0; i < count; i++) { points[i] = (x[i], y[i], z[i], i); }`,
overwriting slot `i` of the existing (possibly stale) cache. -/
def cache_points (pts : List data_point) (x y z : List ℚ) : ℕ → List data_point
  | 0 => pts
  | i + 1 =>
    (cache_points pts x y z i).set i ⟨x.getD i 0, y.getD i 0, z.getD i 0, i⟩

/-- Embeds `kdtree_build` on a fresh handle (`*tree_ptr == NULL`): allocate a cache of
`count` slots (contents indeterminate before the fill loop, modelled as `dp0`),
fill it, and build from the full range `[0, count-1]` at depth 0. -/
def kdtree_build (x y z : List ℚ) (count : ℕ) : kdtree :=
  let cache := cache_points (List.replicate count dp0) x y z count
  let res := build_kdtree (count - 1) cache 0 (count - 1) 0
  ⟨count, (count - 1) * 2 + 1, res.2, res.1⟩

/-- Embeds `kdtree_build(x, y, z, count, &tree)` with an arbitrary previous handle:
when the recorded count matches, the cache and arena are reused in place (the
stale cache is overwritten by the fill loop and the bump cursor reset);
otherwise the old tree is deleted and a fresh one allocated. -/
def kdtree_build_handle (prev : Option kdtree) (x y z : List ℚ) (count : ℕ) :
    kdtree :=
  match prev with
  | some old =>
    if old.count = count then
      let cache := cache_points old.points x y z count
      let res := build_kdtree (count - 1) cache 0 (count - 1) 0
      ⟨count, old.max_nodes, res.2, res.1⟩
    else kdtree_build x y z count
  | none => kdtree_build x y z count

/-- Embeds `DBL_MAX`, exactly: (2 - 2^-52) * 2^1023. -/
def DBL_MAX : ℚ := 2 ^ 1024 - 2 ^ 971

/-- Embeds `_point_in_search_space(point, search_space)`. -/
def point_in_search_space (p : data_point) (ss : space) : Bool :=
  decide (p.x ≤ (ss.dim 0).max) && decide (p.x ≥ (ss.dim 0).min) &&
  decide (p.y ≤ (ss.dim 1).max) && decide (p.y ≥ (ss.dim 1).min) &&
  decide (p.z ≤ (ss.dim 2).max) && decide (p.z ≥ (ss.dim 2).min)

/-- Embeds `_completely_enclosed(search_space, domain)`. -/
def completely_enclosed (ss domain : space) : Bool :=
  decide ((domain.dim 0).min ≤ (ss.dim 0).max) &&
  decide ((domain.dim 0).min ≥ (ss.dim 0).min) &&
  decide ((domain.dim 0).max ≤ (ss.dim 0).max) &&
  decide ((domain.dim 0).max ≥ (ss.dim 0).min) &&
  decide ((domain.dim 1).min ≤ (ss.dim 1).max) &&
  decide ((domain.dim 1).min ≥ (ss.dim 1).min) &&
  decide ((domain.dim 1).max ≤ (ss.dim 1).max) &&
  decide ((domain.dim 1).max ≥ (ss.dim 1).min) &&
  decide ((domain.dim 2).min ≤ (ss.dim 2).max) &&
  decide ((domain.dim 2).min ≥ (ss.dim 2).min) &&
  decide ((domain.dim 2).max ≤ (ss.dim 2).max) &&
  decide ((domain.dim 2).max ≥ (ss.dim 2).min)

/-- Embeds `_search_area_intersects(search_space, domain)`. -/
def search_area_intersects (ss domain : space) : Bool :=
  !(decide ((ss.dim 0).min > (domain.dim 0).max) ||
    decide ((ss.dim 0).max < (domain.dim 0).min) ||
    decide ((ss.dim 1).min > (domain.dim 1).max) ||
    decide ((ss.dim 1).max < (domain.dim 1).min) ||
    decide ((ss.dim 2).min > (domain.dim 2).max) ||
    decide ((ss.dim 2).max < (domain.dim 2).min))

/-- Embeds `_report_all_leaves`: push `tree->points[node->idx].idx` for every leaf
under `node`, left to right. -/
def report_all_leaves (pts : List data_point) : tree_node → List ℕ
  | .leaf i => [(getPoint pts i).idx]
  | .branch _ l r => report_all_leaves pts l ++ report_all_leaves pts r

/-- Embeds `_explore_branch(tree, node, depth, search_space, domain, iter)`, with the
mutually recursive `_search_kdtree(tree, node, depth + 1, ...)` call inlined so
the recursion is structural on the node.  Results are the sequence of values
pushed to the iterator. -/
def explore_branch (pts : List data_point) :
    tree_node → ℕ → space → space → List ℕ
  | .leaf i, _, ss, _ =>
    if point_in_search_space (getPoint pts i) ss then [(getPoint pts i).idx]
    else []
  | .branch s l r, depth, ss, domain =>
    if search_area_intersects ss domain then
      if completely_enclosed ss domain then
        report_all_leaves pts (.branch s l r)
      else
        let axis := (depth + 1) % 3
        explore_branch pts l (depth + 1) ss (domain.setMax axis s) ++
        explore_branch pts r (depth + 1) ss (domain.setMin axis s)
    else []

/-- Embeds `_search_kdtree(tree, root, depth, search_space, domain, iter)`: split the
domain at the root's threshold on axis `depth % 3` and explore both children.
The function is only ever invoked on branch nodes (asserted at the API); the
leaf case is unreachable. -/
def search_kdtree (pts : List data_point) (root : tree_node) (depth : ℕ)
    (ss domain : space) : List ℕ :=
  match root with
  | .leaf _ => []
  | .branch s l r =>
    let axis := depth % 3
    explore_branch pts l depth ss (domain.setMax axis s) ++
    explore_branch pts r depth ss (domain.setMin axis s)

/-- Embeds `kdtree_search_space(tree, iter, x_min, x_max, y_min, y_max, z_min, z_max)`:
the sequence of original indices pushed into the iterator. -/
def kdtree_search_space (tree : kdtree)
    (x_min x_max y_min y_max z_min z_max : ℚ) : List ℕ :=
  let ss : space := ⟨⟨x_min, x_max⟩, ⟨y_min, y_max⟩, ⟨z_min, z_max⟩⟩
  let domain : space :=
    ⟨⟨-DBL_MAX, DBL_MAX⟩, ⟨-DBL_MAX, DBL_MAX⟩, ⟨-DBL_MAX, DBL_MAX⟩⟩
  search_kdtree tree.points tree.root 0 ss domain

/-- Embeds `kdtree_search(tree, iter, x, y, z, apothem)`: cube search, expanded into
the six-bound box form. -/
def kdtree_search (tree : kdtree) (x y z apothem : ℚ) : List ℕ :=
  kdtree_search_space tree (x - apothem) (x + apothem) (y - apothem)
    (y + apothem) (z - apothem) (z + apothem)

/-- Embeds `KDTREE_END` (`SIZE_MAX` for 64-bit `size_t`). -/
def KDTREE_END : ℕ := 2 ^ 64 - 1

/-- Embeds `kdtree_iterator`.  `data` models the live buffer prefix `data[0 .. size)`
(cells at or beyond `size` are never read through the API, and `capacity` is
not observable), so `size = data.length` by construction. -/
structure kdtree_iterator where
  data : List ℕ
  size : ℕ
  current : ℕ
  deriving DecidableEq, Repr

/-- Embeds `_iterator_new()`. -/
def iterator_new : kdtree_iterator := ⟨[], 0, 0⟩

/-- Embeds `_iterator_reset(iter)`: `size = 0; current = 0` — entries beyond `size`
become dead, so the live prefix empties. -/
def iterator_reset (_it : kdtree_iterator) : kdtree_iterator := ⟨[], 0, 0⟩

/-- Embeds `_iterator_push(iter, value)`: `data[size++] = value` (growing the buffer
when full, which is not observable). -/
def iterator_push (it : kdtree_iterator) (v : ℕ) : kdtree_iterator :=
  ⟨it.data ++ [v], it.size + 1, it.current⟩

/-- Embeds `kdtree_iterator_get_next(iter)`: the returned value paired with the
updated iterator state. -/
def kdtree_iterator_get_next (it : kdtree_iterator) : ℕ × kdtree_iterator :=
  if it.current = it.size then (KDTREE_END, it)
  else (it.data.getD it.current 0, ⟨it.data, it.size, it.current + 1⟩)

/-- Embeds `kdtree_iterator_rewind(iter)`. -/
def kdtree_iterator_rewind (it : kdtree_iterator) : kdtree_iterator :=
  ⟨it.data, it.size, 0⟩

/-- Embeds `kdtree_search_space` including the iterator handling: reset the caller's
iterator (or make a new one) and push every reported index. -/
def kdtree_search_space_iter (tree : kdtree) (prev : Option kdtree_iterator)
    (x_min x_max y_min y_max z_min z_max : ℚ) : kdtree_iterator :=
  let it0 := match prev with
    | some it => iterator_reset it
    | none => iterator_new
  (kdtree_search_space tree x_min x_max y_min y_max z_min z_max).foldl
    iterator_push it0

/-! ### Spaces and geometric predicates -/

/-- A point lies within a space on all three axes, inclusively. -/
def inSpace (p : data_point) (s : space) : Prop :=
  ∀ a, a < 3 → (s.dim a).min ≤ coord a p ∧ coord a p ≤ (s.dim a).max

/-- Predicate `treeInv pts node d`: `node` hangs at depth `d` over the point cache `pts`;
every leaf slot is in bounds and, at each branch, the leaves of the left
subtree lie at or below the split value on the branch's axis, those of the
right subtree at or above it. -/
def treeInv (pts : List data_point) : tree_node → ℕ → Prop
  | .leaf i, _ => i < pts.length
  | .branch s l r, d =>
    treeInv pts l (d + 1) ∧ treeInv pts r (d + 1) ∧
    (∀ i ∈ l.leafList, coord (d % 3) (getPoint pts i) ≤ s) ∧
    (∀ i ∈ r.leafList, s ≤ coord (d % 3) (getPoint pts i))

/-- What `_explore_branch` pushes for one leaf slot: the original index when the
cached point passes the box test, nothing otherwise. -/
def pointReport (ss : space) (p : data_point) : Option ℕ :=
  if point_in_search_space p ss then some p.idx else none

/-- Application of `pointReport` to the cache slot `i`. -/
def leafReport (pts : List data_point) (ss : space) (i : ℕ) : Option ℕ :=
  pointReport ss (getPoint pts i)

/-- Input coordinates are finite doubles: every finite double lies within
`[-DBL_MAX, DBL_MAX]`, the code's initial search domain. -/
def boundedCoords (x y z : List ℚ) (n : ℕ) : Prop :=
  ∀ i, i < n →
    -DBL_MAX ≤ x.getD i 0 ∧ x.getD i 0 ≤ DBL_MAX ∧
    -DBL_MAX ≤ y.getD i 0 ∧ y.getD i 0 ≤ DBL_MAX ∧
    -DBL_MAX ≤ z.getD i 0 ∧ z.getD i 0 ≤ DBL_MAX

/-- Box membership of original point `i` on all three axes, with the inclusive
comparisons of `_point_in_search_space`. -/
def inBox (x y z : List ℚ) (x_min x_max y_min y_max z_min z_max : ℚ) (i : ℕ) : Bool :=
  decide (x.getD i 0 ≤ x_max) && decide (x.getD i 0 ≥ x_min) &&
  decide (y.getD i 0 ≤ y_max) && decide (y.getD i 0 ≥ y_min) &&
  decide (z.getD i 0 ≤ z_max) && decide (z.getD i 0 ≥ z_min)

/-- Predicate `domains_bound pts node d D`: the domain `D` handed to `node` (sitting at
depth `d`) bounds every point reachable under it, and, recursively, so do the
domains handed to its children by `_search_kdtree` — the left child's domain
clamps the axis max to the split value, the right child's the axis min. -/
def domains_bound (pts : List data_point) : tree_node → ℕ → space → Prop
  | .leaf i, _, D => inSpace (getPoint pts i) D
  | .branch s l r, d, D =>
    (∀ i ∈ (tree_node.branch s l r).leafList, inSpace (getPoint pts i) D) ∧
    domains_bound pts l (d + 1) (D.setMax (d % 3) s) ∧
    domains_bound pts r (d + 1) (D.setMin (d % 3) s)

/-- The iterator state after `k` calls to `kdtree_iterator_get_next`. -/
def nexts (it : kdtree_iterator) : ℕ → kdtree_iterator
  | 0 => it
  | k + 1 => (kdtree_iterator_get_next (nexts it k)).2

/-- The values returned by `k` successive `kdtree_iterator_get_next` calls. -/
def drain (it : kdtree_iterator) : ℕ → List ℕ
  | 0 => []
  | k + 1 => (kdtree_iterator_get_next it).1 ::
      drain (kdtree_iterator_get_next it).2 k

/-- The caller's three coordinate arrays, threaded through `kdtree_build` as
state: the build reads them in the cache-fill loop and sorts only the
tree-owned cache copy, so no statement of the embedding writes to them. -/
structure caller_arrays where
  x : List ℚ
  y : List ℚ
  z : List ℚ
  deriving DecidableEq, Repr

/-- Embeds `kdtree_build(x, y, z, count, tree_ptr)` as a transformer of the caller's
state: returns the tree handle together with the coordinate arrays after the
call. -/
def kdtree_build_withArrays (arrs : caller_arrays) (count : ℕ)
    (prev : Option kdtree) : kdtree × caller_arrays :=
  (kdtree_build_handle prev arrs.x arrs.y arrs.z count, arrs)

theorem inSpace_def (p : data_point) (s : space) : inSpace p s ↔
    (s.d0.min ≤ p.x ∧ p.x ≤ s.d0.max) ∧ (s.d1.min ≤ p.y ∧ p.y ≤ s.d1.max) ∧
    (s.d2.min ≤ p.z ∧ p.z ≤ s.d2.max) := by
  constructor
  · intro h
    exact ⟨h 0 (by omega), h 1 (by omega), h 2 (by omega)⟩
  · rintro ⟨h0, h1, h2⟩ a ha
    interval_cases a
    · exact h0
    · exact h1
    · exact h2

theorem point_in_search_space_iff (p : data_point) (ss : space) :
    point_in_search_space p ss = true ↔ inSpace p ss := by
  simp only [point_in_search_space, Bool.and_eq_true, decide_eq_true_eq, ge_iff_le,
    inSpace_def]
  tauto

theorem completely_enclosed_iff (ss D : space) : completely_enclosed ss D = true ↔
    ∀ a, a < 3 → (ss.dim a).min ≤ (D.dim a).min ∧ (D.dim a).min ≤ (ss.dim a).max ∧
      (ss.dim a).min ≤ (D.dim a).max ∧ (D.dim a).max ≤ (ss.dim a).max := by
  simp only [completely_enclosed, Bool.and_eq_true, decide_eq_true_eq, ge_iff_le]
  constructor
  · intro h a ha
    interval_cases a <;> tauto
  · intro h
    have h0 := h 0 (by omega)
    have h1 := h 1 (by omega)
    have h2 := h 2 (by omega)
    tauto

theorem search_area_intersects_eq_false_iff (ss D : space) :
    search_area_intersects ss D = false ↔
    ∃ a, a < 3 ∧ ((D.dim a).max < (ss.dim a).min ∨ (ss.dim a).max < (D.dim a).min) := by
  unfold search_area_intersects
  rw [show ∀ b : Bool, ((!b) = false ↔ b = true) from fun b => by cases b <;> simp]
  simp only [Bool.or_eq_true, decide_eq_true_eq, gt_iff_lt]
  constructor
  · rintro (((((h | h) | h) | h) | h) | h)
    · exact ⟨0, by omega, Or.inl h⟩
    · exact ⟨0, by omega, Or.inr h⟩
    · exact ⟨1, by omega, Or.inl h⟩
    · exact ⟨1, by omega, Or.inr h⟩
    · exact ⟨2, by omega, Or.inl h⟩
    · exact ⟨2, by omega, Or.inr h⟩
  · rintro ⟨a, ha, h⟩
    interval_cases a <;> tauto

theorem point_in_of_enclosed {p : data_point} {ss D : space} (hin : inSpace p D)
    (henc : completely_enclosed ss D = true) :
    point_in_search_space p ss = true := by
  rw [point_in_search_space_iff]
  rw [completely_enclosed_iff] at henc
  intro a ha
  obtain ⟨hmin, hmax⟩ := hin a ha
  obtain ⟨e1, e2, e3, e4⟩ := henc a ha
  exact ⟨le_trans e1 hmin, le_trans hmax e4⟩

theorem point_not_in_of_no_intersect {p : data_point} {ss D : space}
    (hin : inSpace p D) (hni : search_area_intersects ss D = false) :
    point_in_search_space p ss = false := by
  rw [Bool.eq_false_iff]
  intro hc
  rw [point_in_search_space_iff] at hc
  rw [search_area_intersects_eq_false_iff] at hni
  obtain ⟨a, ha, hcase⟩ := hni
  obtain ⟨d1, d2⟩ := hin a ha
  obtain ⟨s1, s2⟩ := hc a ha
  rcases hcase with h | h <;> linarith

theorem space_dim_setMax {a b : ℕ} (s : space) (v : ℚ) (ha : a < 3) (hb : b < 3) :
    (s.setMax a v).dim b = if a = b then ⟨(s.dim b).min, v⟩ else s.dim b := by
  interval_cases a <;> interval_cases b <;> simp [space.setMax, space.dim]

theorem space_dim_setMin {a b : ℕ} (s : space) (v : ℚ) (ha : a < 3) (hb : b < 3) :
    (s.setMin a v).dim b = if a = b then ⟨v, (s.dim b).max⟩ else s.dim b := by
  interval_cases a <;> interval_cases b <;> simp [space.setMin, space.dim]

theorem inSpace_setMax {p : data_point} {D : space} {a : ℕ} {v : ℚ}
    (hin : inSpace p D) (ha : a < 3) (hc : coord a p ≤ v) :
    inSpace p (D.setMax a v) := by
  intro b hb
  rw [space_dim_setMax D v ha hb]
  rcases eq_or_ne a b with rfl | hne
  · rw [if_pos rfl]
    exact ⟨(hin a hb).1, by simpa using hc⟩
  · rw [if_neg hne]
    exact hin b hb

theorem inSpace_setMin {p : data_point} {D : space} {a : ℕ} {v : ℚ}
    (hin : inSpace p D) (ha : a < 3) (hc : v ≤ coord a p) :
    inSpace p (D.setMin a v) := by
  intro b hb
  rw [space_dim_setMin D v ha hb]
  rcases eq_or_ne a b with rfl | hne
  · rw [if_pos rfl]
    exact ⟨by simpa using hc, (hin a hb).2⟩
  · rw [if_neg hne]
    exact hin b hb

/-! ### Sub-array toolkit -/

theorem subrange_length {pts : List data_point} {f len : ℕ}
    (h : f + len ≤ pts.length) : (subrange pts f len).length = len := by
  simp only [subrange, List.length_take, List.length_drop]
  omega

theorem getPoint_eq_getElem {pts : List data_point} {i : ℕ} (h : i < pts.length) :
    getPoint pts i = pts[i] := List.getD_eq_getElem _ _ h

theorem getPoint_take {pts : List data_point} {i k : ℕ} (hik : i < k) :
    getPoint (pts.take k) i = getPoint pts i := by
  by_cases hi : i < pts.length
  · have h1 : i < (pts.take k).length := by
      rw [List.length_take]
      exact lt_min hik hi
    rw [getPoint_eq_getElem hi, getPoint_eq_getElem h1, List.getElem_take]
  · have h1 : (pts.take k).length ≤ i := by
      rw [List.length_take]
      exact le_trans (min_le_right _ _) (by omega)
    unfold getPoint
    rw [List.getD_eq_default _ _ (show pts.length ≤ i by omega),
      List.getD_eq_default _ _ h1]

theorem getPoint_drop {pts : List data_point} {i k : ℕ} (hik : k ≤ i) :
    getPoint (pts.drop k) (i - k) = getPoint pts i := by
  by_cases hi : i < pts.length
  · have h1 : i - k < (pts.drop k).length := by
      rw [List.length_drop]
      omega
    rw [getPoint_eq_getElem hi, getPoint_eq_getElem h1, List.getElem_drop]
    congr 1
    omega
  · have h1 : (pts.drop k).length ≤ i - k := by
      rw [List.length_drop]
      omega
    unfold getPoint
    rw [List.getD_eq_default _ _ (show pts.length ≤ i by omega),
      List.getD_eq_default _ _ h1]

theorem getPoint_congr_take {l₁ l₂ : List data_point} {k i : ℕ}
    (h : l₁.take k = l₂.take k) (hik : i < k) : getPoint l₁ i = getPoint l₂ i := by
  rw [← @getPoint_take l₁ i k hik, h, getPoint_take hik]

theorem getPoint_congr_drop {l₁ l₂ : List data_point} {k i : ℕ}
    (h : l₁.drop k = l₂.drop k) (hik : k ≤ i) : getPoint l₁ i = getPoint l₂ i := by
  rw [← @getPoint_drop l₁ i k hik, h, getPoint_drop hik]

theorem getPoint_mem_subrange {pts : List data_point} {f len i : ℕ}
    (hf : f ≤ i) (hi : i < f + len) (hb : f + len ≤ pts.length) :
    getPoint pts i ∈ subrange pts f len := by
  have h1 : i - f < (subrange pts f len).length := by rw [subrange_length hb]; omega
  have h2 : (subrange pts f len)[i - f] = getPoint pts i := by
    simp only [subrange, List.getElem_take, List.getElem_drop]
    rw [getPoint_eq_getElem (show i < pts.length by omega)]
    congr 1
    omega
  exact h2 ▸ List.getElem_mem h1

theorem take_eq_of_take_eq {l₁ l₂ : List data_point} {k m : ℕ}
    (h : l₁.take k = l₂.take k) (hm : m ≤ k) : l₁.take m = l₂.take m := by
  calc l₁.take m = (l₁.take k).take m := by rw [List.take_take, min_eq_left hm]
    _ = (l₂.take k).take m := by rw [h]
    _ = l₂.take m := by rw [List.take_take, min_eq_left hm]

theorem drop_eq_of_drop_eq {l₁ l₂ : List data_point} {k m : ℕ}
    (h : l₁.drop k = l₂.drop k) (hm : k ≤ m) : l₁.drop m = l₂.drop m := by
  calc l₁.drop m = (l₁.drop k).drop (m - k) := by rw [List.drop_drop]; congr 1; omega
    _ = (l₂.drop k).drop (m - k) := by rw [h]
    _ = l₂.drop m := by rw [List.drop_drop]; congr 1; omega

theorem subrange_eq_of_drop_eq {l₁ l₂ : List data_point} {f len : ℕ}
    (h : l₁.drop f = l₂.drop f) : subrange l₁ f len = subrange l₂ f len := by
  simp only [subrange, h]

theorem subrange_eq_of_take_eq {l₁ l₂ : List data_point} {f len k : ℕ}
    (h : l₁.take k = l₂.take k) (hk : f + len ≤ k) :
    subrange l₁ f len = subrange l₂ f len := by
  have e : ∀ l : List data_point, subrange l f len = ((l.take k).drop f).take len := by
    intro l
    rw [List.drop_take, List.take_take, min_eq_left (show len ≤ k - f by omega)]
    rfl
  rw [e l₁, e l₂, h]

theorem subrange_split (pts : List data_point) (f a b : ℕ) :
    subrange pts f (a + b) = subrange pts f a ++ subrange pts (f + a) b := by
  unfold subrange
  rw [List.take_add, List.drop_drop]

theorem subrange_take (pts : List data_point) {f a len : ℕ} (h : a ≤ len) :
    subrange pts f a = (subrange pts f len).take a := by
  unfold subrange
  rw [List.take_take, min_eq_left h]

theorem subrange_drop (pts : List data_point) (f a len : ℕ) :
    (subrange pts f len).drop a = subrange pts (f + a) (len - a) := by
  unfold subrange
  rw [List.drop_take, List.drop_drop]

theorem subrange_full {pts : List data_point} {n : ℕ} (h : pts.length = n) :
    subrange pts 0 n = pts := by
  unfold subrange
  rw [List.drop_zero, ← h, List.take_length]

theorem getPoint_subrange {pts : List data_point} {f len j : ℕ}
    (hj : j < len) (hb : f + len ≤ pts.length) :
    getPoint (subrange pts f len) j = getPoint pts (f + j) := by
  have h1 : j < (subrange pts f len).length := by rw [subrange_length hb]; omega
  have h2 : f + j < pts.length := by omega
  rw [getPoint_eq_getElem h1, getPoint_eq_getElem h2]
  simp only [subrange, List.getElem_take, List.getElem_drop]

/-! ### Facts about the in-place sub-array sort -/

theorem sortSubrange_length {pts : List data_point} {f len a : ℕ}
    (hf : f + len ≤ pts.length) : (sortSubrange pts f len a).length = pts.length := by
  unfold sortSubrange
  simp only [List.length_append, List.length_take, List.length_insertionSort,
    subrange_length hf, List.length_drop]
  have : f ⊓ pts.length = f := min_eq_left (by omega)
  omega

theorem sortSubrange_take {pts : List data_point} {f len a : ℕ}
    (hf : f + len ≤ pts.length) : (sortSubrange pts f len a).take f = pts.take f := by
  unfold sortSubrange
  rw [List.append_assoc]
  exact List.take_left' (by rw [List.length_take]; exact min_eq_left (by omega))

theorem sortSubrange_drop {pts : List data_point} {f len a : ℕ}
    (hf : f + len ≤ pts.length) :
    (sortSubrange pts f len a).drop (f + len) = pts.drop (f + len) := by
  unfold sortSubrange
  exact List.drop_left' (by
    rw [List.length_append, List.length_take, List.length_insertionSort,
      subrange_length hf]
    have : f ⊓ pts.length = f := min_eq_left (by omega)
    omega)

theorem sortSubrange_subrange {pts : List data_point} {f len a : ℕ}
    (hf : f + len ≤ pts.length) :
    subrange (sortSubrange pts f len a) f len =
      List.insertionSort (axis_le a) (subrange pts f len) := by
  rw [show subrange (sortSubrange pts f len a) f len
      = ((sortSubrange pts f len a).drop f).take len from rfl]
  unfold sortSubrange
  rw [List.append_assoc,
    List.drop_left' (by rw [List.length_take]; exact min_eq_left (by omega)),
    List.take_left' (by rw [List.length_insertionSort, subrange_length hf])]

/-! ### Order facts about sorted point lists -/

theorem sorted_take_le {a : ℕ} {s : List data_point}
    (hs : List.Sorted (axis_le a) s) {m : ℕ} (hm : m < s.length) :
    ∀ p ∈ s.take (m + 1), coord a p ≤ coord a s[m] := by
  intro p hp
  rw [List.mem_take_iff_getElem] at hp
  obtain ⟨j, hj, rfl⟩ := hp
  have hj' : j < m + 1 := lt_of_lt_of_le hj (min_le_left _ _)
  rcases Nat.lt_or_ge j m with hlt | hge
  · have := List.Sorted.rel_get_of_lt hs (a := ⟨j, by omega⟩) (b := ⟨m, hm⟩)
      (Fin.mk_lt_mk.mpr hlt)
    simpa [axis_le, List.get_eq_getElem] using this
  · have hjm : j = m := by omega
    subst hjm
    exact le_refl _

theorem sorted_drop_le {a : ℕ} {s : List data_point}
    (hs : List.Sorted (axis_le a) s) {m : ℕ} (hm : m < s.length) :
    ∀ p ∈ s.drop m, coord a s[m] ≤ coord a p := by
  intro p hp
  rw [List.mem_iff_getElem] at hp
  obtain ⟨j, hj, rfl⟩ := hp
  rw [List.getElem_drop]
  have hj' : m + j < s.length := by rw [List.length_drop] at hj; omega
  rcases Nat.eq_zero_or_pos j with rfl | hj0
  · simp
  · have := List.Sorted.rel_get_of_lt hs (a := ⟨m, hm⟩) (b := ⟨m + j, hj'⟩)
      (Fin.mk_lt_mk.mpr (by omega))
    simpa [axis_le, List.get_eq_getElem] using this

/-! ### The structural invariant established by the builder -/

theorem treeInv_congr {pts pts' : List data_point} (hlen : pts'.length = pts.length) :
    ∀ {node : tree_node} {d : ℕ},
      (∀ i ∈ node.leafList, getPoint pts' i = getPoint pts i) →
      treeInv pts node d → treeInv pts' node d := by
  intro node
  induction node with
  | leaf i =>
    intro d h hi
    simp only [treeInv] at hi ⊢
    omega
  | branch s l r ihl ihr =>
    intro d h hinv
    obtain ⟨h1, h2, h3, h4⟩ := hinv
    have hmeml : ∀ i ∈ l.leafList, getPoint pts' i = getPoint pts i := fun i hi =>
      h i (by simp only [tree_node.leafList, List.mem_append]; exact Or.inl hi)
    have hmemr : ∀ i ∈ r.leafList, getPoint pts' i = getPoint pts i := fun i hi =>
      h i (by simp only [tree_node.leafList, List.mem_append]; exact Or.inr hi)
    refine ⟨ihl hmeml h1, ihr hmemr h2, ?_, ?_⟩
    · intro i hi
      rw [hmeml i hi]
      exact h3 i hi
    · intro i hi
      rw [hmemr i hi]
      exact h4 i hi

/-- The single-point case: `count == 1` (and the never-reached fuel-0 fallback)
returns a leaf for the low index without touching the cache. -/
theorem build_eq_leaf {fuel : ℕ} {pts : List data_point} {f t d : ℕ} (h : t ≤ f) :
    build_kdtree fuel pts f t d = (.leaf f, pts) := by
  cases fuel with
  | zero => rfl
  | succ fuel => simp [build_kdtree, show t - f + 1 = 1 by omega]

/-- Main specification of `_build_kdtree` over the range `[f, t]`: the cache
outside the range is untouched, the active range is permuted in place, the
leaves enumerate exactly the slots `f..t` in left-to-right order, and the
split invariant `treeInv` holds at depth `d`. -/
theorem build_spec (fuel : ℕ) : ∀ (f t d : ℕ) (pts : List data_point),
    f ≤ t → t < pts.length → t - f ≤ fuel →
    ((build_kdtree fuel pts f t d).2.length = pts.length ∧
     (build_kdtree fuel pts f t d).2.take f = pts.take f ∧
     (build_kdtree fuel pts f t d).2.drop (t + 1) = pts.drop (t + 1)) ∧
    (subrange (build_kdtree fuel pts f t d).2 f (t - f + 1)).Perm
      (subrange pts f (t - f + 1)) ∧
    (build_kdtree fuel pts f t d).1.leafList = List.range' f (t - f + 1) ∧
    treeInv (build_kdtree fuel pts f t d).2 (build_kdtree fuel pts f t d).1 d := by
  induction fuel with
  | zero =>
    intro f t d pts hft htl hfu
    have ht : t = f := by omega
    subst ht
    rw [build_eq_leaf (le_refl _)]
    refine ⟨⟨rfl, rfl, rfl⟩, List.Perm.refl _, ?_, ?_⟩
    · simp [tree_node.leafList]
    · simpa [treeInv] using htl
  | succ fuel ih =>
    intro f t d pts hft htl hfu
    by_cases hc : t - f + 1 = 1
    · have ht : t = f := by omega
      subst ht
      rw [build_eq_leaf (le_refl _)]
      refine ⟨⟨rfl, rfl, rfl⟩, List.Perm.refl _, ?_, ?_⟩
      · simp [tree_node.leafList]
      · simpa [treeInv] using htl
    · have hft' : f < t := by omega
      have hf1 : f + (t - f + 1) ≤ pts.length := by omega
      have hdiv : (t - f) / 2 < t - f := Nat.div_lt_self (by omega) (by omega)
      have heq : build_kdtree (fuel + 1) pts f t d =
          (tree_node.branch
            (coord (d % 3) (getPoint (sortSubrange pts f (t - f + 1) (d % 3))
              (f + (t - f) / 2)))
            (build_kdtree fuel (sortSubrange pts f (t - f + 1) (d % 3)) f
              (f + (t - f) / 2) (d + 1)).1
            (build_kdtree fuel
              (build_kdtree fuel (sortSubrange pts f (t - f + 1) (d % 3)) f
                (f + (t - f) / 2) (d + 1)).2
              (f + (t - f) / 2 + 1) t (d + 1)).1,
           (build_kdtree fuel
              (build_kdtree fuel (sortSubrange pts f (t - f + 1) (d % 3)) f
                (f + (t - f) / 2) (d + 1)).2
              (f + (t - f) / 2 + 1) t (d + 1)).2) := by
        simp only [build_kdtree]
        rw [if_neg hc]
      rw [heq]
      dsimp only
      set mid := f + (t - f) / 2 with hmid_def
      set pts1 := sortSubrange pts f (t - f + 1) (d % 3) with hpts1_def
      set lres := build_kdtree fuel pts1 f mid (d + 1) with hlres_def
      set rres := build_kdtree fuel lres.2 (mid + 1) t (d + 1) with hrres_def
      have hmidf : f ≤ mid := by omega
      have hmidt : mid < t := by omega
      have hlen1 : pts1.length = pts.length := sortSubrange_length hf1
      have htk1 : pts1.take f = pts.take f := sortSubrange_take hf1
      have hdr1 : pts1.drop (t + 1) = pts.drop (t + 1) := by
        have h := @sortSubrange_drop pts f (t - f + 1) (d % 3) hf1
        rw [show f + (t - f + 1) = t + 1 by omega] at h
        exact h
      have hsub1 : subrange pts1 f (t - f + 1) =
          List.insertionSort (axis_le (d % 3)) (subrange pts f (t - f + 1)) :=
        sortSubrange_subrange hf1
      set srt := List.insertionSort (axis_le (d % 3)) (subrange pts f (t - f + 1))
        with hsrt_def
      obtain ⟨⟨hlen2, htk2, hdr2⟩, hperm2, hleafl, hinvl⟩ :
          (lres.2.length = pts1.length ∧ lres.2.take f = pts1.take f ∧
            lres.2.drop (mid + 1) = pts1.drop (mid + 1)) ∧
          (subrange lres.2 f (mid - f + 1)).Perm (subrange pts1 f (mid - f + 1)) ∧
          lres.1.leafList = List.range' f (mid - f + 1) ∧
          treeInv lres.2 lres.1 (d + 1) :=
        ih f mid (d + 1) pts1 hmidf (by rw [hlen1]; omega) (by omega)
      obtain ⟨⟨hlen3, htk3, hdr3⟩, hperm3, hleafr, hinvr⟩ :
          (rres.2.length = lres.2.length ∧
            rres.2.take (mid + 1) = lres.2.take (mid + 1) ∧
            rres.2.drop (t + 1) = lres.2.drop (t + 1)) ∧
          (subrange rres.2 (mid + 1) (t - (mid + 1) + 1)).Perm
            (subrange lres.2 (mid + 1) (t - (mid + 1) + 1)) ∧
          rres.1.leafList = List.range' (mid + 1) (t - (mid + 1) + 1) ∧
          treeInv rres.2 rres.1 (d + 1) :=
        ih (mid + 1) t (d + 1) lres.2 (by omega) (by rw [hlen2, hlen1]; omega)
          (by omega)
      rw [show t - (mid + 1) + 1 = t - mid from by omega] at hperm3 hleafr
      have hlen3' : rres.2.length = pts.length := by rw [hlen3, hlen2, hlen1]
      have htfa : t - f + 1 = (mid - f + 1) + (t - mid) := by omega
      have hmemb_l : ∀ i ∈ lres.1.leafList, f ≤ i ∧ i < mid + 1 := by
        intro i hi
        rw [hleafl, List.mem_range'] at hi
        obtain ⟨j, hj, rfl⟩ := hi
        omega
      have hmemb_r : ∀ i ∈ rres.1.leafList, mid + 1 ≤ i ∧ i < t + 1 := by
        intro i hi
        rw [hleafr, List.mem_range'] at hi
        obtain ⟨j, hj, rfl⟩ := hi
        omega
      have hra : subrange rres.2 f (mid - f + 1) = subrange lres.2 f (mid - f + 1) :=
        subrange_eq_of_take_eq htk3 (by omega)
      have hrb : subrange lres.2 (mid + 1) (t - mid) =
          subrange pts1 (mid + 1) (t - mid) := subrange_eq_of_drop_eq hdr2
      have hsrt_len : srt.length = t - f + 1 := by
        rw [hsrt_def, List.length_insertionSort, subrange_length hf1]
      have hmf : mid - f < srt.length := by omega
      have hsa : subrange pts1 f (mid - f + 1) = srt.take (mid - f + 1) := by
        rw [← hsub1]
        exact subrange_take pts1 (by omega)
      have hsb : subrange pts1 (mid + 1) (t - mid) = srt.drop (mid - f + 1) := by
        have e5 := subrange_drop pts1 f (mid - f + 1) (t - f + 1)
        rw [hsub1] at e5
        rw [show f + (mid - f + 1) = mid + 1 from by omega,
          show t - f + 1 - (mid - f + 1) = t - mid from by omega] at e5
        exact e5.symm
      have e3 : getPoint pts1 mid = srt[mid - f] := by
        have e4 := @getPoint_subrange pts1 f (t - f + 1) (mid - f)
          (by omega) (by rw [hlen1]; omega)
        rw [hsub1] at e4
        rw [show f + (mid - f) = mid from by omega] at e4
        rw [← e4, getPoint_eq_getElem hmf]
      refine ⟨⟨hlen3', ?_, ?_⟩, ?_, ?_, ?_⟩
      · have e1 : rres.2.take f = lres.2.take f := take_eq_of_take_eq htk3 (by omega)
        rw [e1, htk2, htk1]
      · have e2 : lres.2.drop (t + 1) = pts1.drop (t + 1) :=
          drop_eq_of_drop_eq hdr2 (by omega)
        rw [hdr3, e2, hdr1]
      · have p1 : subrange rres.2 f (t - f + 1) =
            subrange rres.2 f (mid - f + 1) ++ subrange rres.2 (mid + 1) (t - mid) := by
          rw [htfa, subrange_split, show f + (mid - f + 1) = mid + 1 from by omega]
        have p2 : subrange pts1 f (t - f + 1) =
            subrange pts1 f (mid - f + 1) ++ subrange pts1 (mid + 1) (t - mid) := by
          rw [htfa, subrange_split, show f + (mid - f + 1) = mid + 1 from by omega]
        have hmain : (subrange rres.2 f (t - f + 1)).Perm
            (subrange pts1 f (t - f + 1)) := by
          rw [p1, p2, hra]
          exact List.Perm.append hperm2 (hrb ▸ hperm3)
        refine hmain.trans ?_
        rw [hsub1]
        exact List.perm_insertionSort _ _
      · show (tree_node.branch _ lres.1 rres.1).leafList = _
        simp only [tree_node.leafList]
        rw [hleafl, hleafr]
        have hr := List.range'_append f (mid - f + 1) (t - mid) 1
        rw [show f + 1 * (mid - f + 1) = mid + 1 from by omega] at hr
        rw [hr]
        congr 1
        omega
      · refine ⟨treeInv_congr (by rw [hlen3]) ?_ hinvl, hinvr, ?_, ?_⟩
        · intro i hi
          exact getPoint_congr_take htk3 (hmemb_l i hi).2
        · intro i hi
          obtain ⟨hif, him⟩ := hmemb_l i hi
          rw [getPoint_congr_take htk3 him, e3]
          have hmem : getPoint lres.2 i ∈ subrange lres.2 f (mid - f + 1) :=
            getPoint_mem_subrange hif (by omega) (by rw [hlen2, hlen1]; omega)
          have hmem2 : getPoint lres.2 i ∈ srt.take (mid - f + 1) := by
            rw [← hsa]
            exact (hperm2.mem_iff).mp hmem
          exact sorted_take_le (List.sorted_insertionSort _ _) hmf _ hmem2
        · intro i hi
          obtain ⟨hif, him⟩ := hmemb_r i hi
          rw [e3]
          have hmem : getPoint rres.2 i ∈ subrange rres.2 (mid + 1) (t - mid) :=
            getPoint_mem_subrange hif (by omega) (by rw [hlen3']; omega)
          have hmem2 : getPoint rres.2 i ∈ srt.drop (mid - f + 1) := by
            rw [← hsb, ← hrb]
            exact (hperm3.mem_iff).mp hmem
          have hsubset : srt.drop (mid - f + 1) ⊆ srt.drop (mid - f) := by
            rw [← List.drop_drop]
            exact List.drop_subset _ _
          exact sorted_drop_le (List.sorted_insertionSort _ _) hmf _ (hsubset hmem2)

/-- The explicit unfolding of `_build_kdtree` in the `count != 1` case. -/
theorem build_eq_branch {fuel : ℕ} {pts : List data_point} {f t d : ℕ} (h : f < t) :
    build_kdtree (fuel + 1) pts f t d =
      (tree_node.branch
        (coord (d % 3) (getPoint (sortSubrange pts f (t - f + 1) (d % 3))
          (f + (t - f) / 2)))
        (build_kdtree fuel (sortSubrange pts f (t - f + 1) (d % 3)) f
          (f + (t - f) / 2) (d + 1)).1
        (build_kdtree fuel
          (build_kdtree fuel (sortSubrange pts f (t - f + 1) (d % 3)) f
            (f + (t - f) / 2) (d + 1)).2
          (f + (t - f) / 2 + 1) t (d + 1)).1,
       (build_kdtree fuel
          (build_kdtree fuel (sortSubrange pts f (t - f + 1) (d % 3)) f
            (f + (t - f) / 2) (d + 1)).2
          (f + (t - f) / 2 + 1) t (d + 1)).2) := by
  simp only [build_kdtree]
  rw [if_neg (show ¬(t - f + 1 = 1) by omega)]

/-! ### Node counting -/

theorem numLeaves_eq_numBranches_add_one (node : tree_node) :
    node.numLeaves = node.numBranches + 1 := by
  induction node with
  | leaf i => rfl
  | branch s l r ihl ihr =>
    simp only [tree_node.numLeaves, tree_node.numBranches, ihl, ihr]
    omega

theorem numNodes_eq_add (node : tree_node) :
    node.numNodes = node.numLeaves + node.numBranches := by
  induction node with
  | leaf i => rfl
  | branch s l r ihl ihr =>
    simp only [tree_node.numNodes, tree_node.numLeaves, tree_node.numBranches, ihl, ihr]
    omega

theorem numLeaves_eq_length_leafList (node : tree_node) :
    node.numLeaves = node.leafList.length := by
  induction node with
  | leaf i => rfl
  | branch s l r ihl ihr =>
    simp only [tree_node.numLeaves, tree_node.leafList, List.length_append, ihl, ihr]

/-! ### Search correctness -/

theorem leafReport_filterMap_all {pts : List data_point} {ss : space} {L : List ℕ}
    (hall : ∀ i ∈ L, point_in_search_space (getPoint pts i) ss = true) :
    L.filterMap (leafReport pts ss) = L.map (fun i => (getPoint pts i).idx) := by
  induction L with
  | nil => rfl
  | cons a L ih =>
    have ha := hall a (List.mem_cons_self a L)
    rw [List.filterMap_cons, List.map_cons]
    simp only [leafReport, pointReport, ha, if_true]
    rw [ih (fun i hi => hall i (List.mem_cons_of_mem a hi))]

theorem leafReport_filterMap_none {pts : List data_point} {ss : space} {L : List ℕ}
    (hall : ∀ i ∈ L, point_in_search_space (getPoint pts i) ss = false) :
    L.filterMap (leafReport pts ss) = [] := by
  rw [List.filterMap_eq_nil_iff]
  intro i hi
  simp [leafReport, pointReport, hall i hi]

theorem report_all_leaves_eq (pts : List data_point) (node : tree_node) :
    report_all_leaves pts node = node.leafList.map (fun i => (getPoint pts i).idx) := by
  induction node with
  | leaf i => rfl
  | branch s l r ihl ihr =>
    simp only [report_all_leaves, tree_node.leafList, List.map_append, ihl, ihr]

/-- Correctness of `_explore_branch`: under the split invariant, if the domain
bounds every point of the subtree then the exploration reports exactly the
original indices of the subtree's leaves that pass the box test, in leaf
order — pruning drops nothing that matches, and the enclosure short-circuit
reports nothing that does not. -/
theorem explore_spec (pts : List data_point) (node : tree_node) :
    ∀ (d : ℕ) (ss D : space),
      treeInv pts node (d + 1) →
      (∀ i ∈ node.leafList, inSpace (getPoint pts i) D) →
      explore_branch pts node d ss D = node.leafList.filterMap (leafReport pts ss) := by
  induction node with
  | leaf i =>
    intro d ss D hinv hdom
    cases hb : point_in_search_space (getPoint pts i) ss <;>
      simp [explore_branch, tree_node.leafList, leafReport, pointReport, hb]
  | branch s l r ihl ihr =>
    intro d ss D hinv hdom
    obtain ⟨hinvl, hinvr, hbl, hbr⟩ := hinv
    cases hI : search_area_intersects ss D with
    | false =>
      rw [show explore_branch pts (.branch s l r) d ss D = [] from by
        simp [explore_branch, hI]]
      exact (leafReport_filterMap_none
        (fun i hi => point_not_in_of_no_intersect (hdom i hi) hI)).symm
    | true =>
      cases hE : completely_enclosed ss D with
      | true =>
        rw [show explore_branch pts (.branch s l r) d ss D =
            report_all_leaves pts (.branch s l r) from by
          simp [explore_branch, hI, hE]]
        rw [report_all_leaves_eq]
        exact (leafReport_filterMap_all
          (fun i hi => point_in_of_enclosed (hdom i hi) hE)).symm
      | false =>
        rw [show explore_branch pts (.branch s l r) d ss D =
            explore_branch pts l (d + 1) ss (D.setMax ((d + 1) % 3) s) ++
            explore_branch pts r (d + 1) ss (D.setMin ((d + 1) % 3) s) from by
          simp [explore_branch, hI, hE]]
        have hdoml : ∀ i ∈ l.leafList,
            inSpace (getPoint pts i) (D.setMax ((d + 1) % 3) s) := by
          intro i hi
          refine inSpace_setMax ?_ (Nat.mod_lt _ (by omega)) (hbl i hi)
          exact hdom i (by
            simp only [tree_node.leafList, List.mem_append]; exact Or.inl hi)
        have hdomr : ∀ i ∈ r.leafList,
            inSpace (getPoint pts i) (D.setMin ((d + 1) % 3) s) := by
          intro i hi
          refine inSpace_setMin ?_ (Nat.mod_lt _ (by omega)) (hbr i hi)
          exact hdom i (by
            simp only [tree_node.leafList, List.mem_append]; exact Or.inr hi)
        rw [ihl (d + 1) ss _ hinvl hdoml, ihr (d + 1) ss _ hinvr hdomr]
        simp [tree_node.leafList, List.filterMap_append]

/-- Correctness of `_search_kdtree` on the branch node it is always given. -/
theorem search_spec (pts : List data_point) (s : ℚ) (l r : tree_node) (d : ℕ)
    (ss D : space) (hinv : treeInv pts (.branch s l r) d)
    (hdom : ∀ i ∈ (tree_node.branch s l r).leafList, inSpace (getPoint pts i) D) :
    search_kdtree pts (.branch s l r) d ss D =
      (tree_node.branch s l r).leafList.filterMap (leafReport pts ss) := by
  obtain ⟨hinvl, hinvr, hbl, hbr⟩ := hinv
  have hdoml : ∀ i ∈ l.leafList, inSpace (getPoint pts i) (D.setMax (d % 3) s) := by
    intro i hi
    refine inSpace_setMax ?_ (Nat.mod_lt _ (by omega)) (hbl i hi)
    exact hdom i (by simp only [tree_node.leafList, List.mem_append]; exact Or.inl hi)
  have hdomr : ∀ i ∈ r.leafList, inSpace (getPoint pts i) (D.setMin (d % 3) s) := by
    intro i hi
    refine inSpace_setMin ?_ (Nat.mod_lt _ (by omega)) (hbr i hi)
    exact hdom i (by simp only [tree_node.leafList, List.mem_append]; exact Or.inr hi)
  rw [show search_kdtree pts (.branch s l r) d ss D =
      explore_branch pts l d ss (D.setMax (d % 3) s) ++
      explore_branch pts r d ss (D.setMin (d % 3) s) from rfl]
  rw [explore_spec pts l d ss _ hinvl hdoml, explore_spec pts r d ss _ hinvr hdomr]
  simp [tree_node.leafList, List.filterMap_append]

/-! ### The cache-fill loop -/

theorem cache_points_length (pts : List data_point) (x y z : List ℚ) (n : ℕ) :
    (cache_points pts x y z n).length = pts.length := by
  induction n with
  | zero => rfl
  | succ n ih => simp only [cache_points, List.length_set, ih]

theorem cache_points_getPoint {pts : List data_point} {x y z : List ℚ} {n i : ℕ}
    (hin : i < n) (hil : i < pts.length) :
    getPoint (cache_points pts x y z n) i =
      ⟨x.getD i 0, y.getD i 0, z.getD i 0, i⟩ := by
  induction n with
  | zero => omega
  | succ n ih =>
    have hlen : (cache_points pts x y z (n + 1)).length = pts.length :=
      cache_points_length pts x y z (n + 1)
    rcases Nat.lt_or_ge i n with h | h
    · rw [getPoint_eq_getElem (by omega)]
      simp only [cache_points]
      rw [List.getElem_set_ne (by omega)]
      rw [← getPoint_eq_getElem (by rw [cache_points_length]; omega)]
      exact ih h
    · have hi_eq : i = n := by omega
      subst hi_eq
      rw [getPoint_eq_getElem (by omega)]
      simp only [cache_points]
      rw [List.getElem_set_self]

theorem cache_points_eq {pts : List data_point} {x y z : List ℚ} {n : ℕ}
    (hlen : pts.length = n) :
    cache_points pts x y z n = (List.range n).map
      (fun i => (⟨x.getD i 0, y.getD i 0, z.getD i 0, i⟩ : data_point)) := by
  apply List.ext_getElem
  · rw [cache_points_length, hlen, List.length_map, List.length_range]
  · intro i h1 h2
    have hin : i < n := by
      rw [List.length_map, List.length_range] at h2
      exact h2
    rw [List.getElem_map, List.getElem_range]
    rw [← getPoint_eq_getElem h1, cache_points_getPoint hin (by omega)]

theorem range_map_getPoint (pts : List data_point) :
    (List.range pts.length).map (getPoint pts) = pts := by
  apply List.ext_getElem
  · simp
  · intro i h1 h2
    rw [List.getElem_map, List.getElem_range, getPoint_eq_getElem h2]

theorem filterMap_if_eq_filter (p : ℕ → Bool) (L : List ℕ) :
    L.filterMap (fun i => if p i then some i else none) = L.filter p := by
  induction L with
  | nil => rfl
  | cons a L ih =>
    cases hp : p a <;> simp [List.filterMap_cons, List.filter_cons, hp, ih]

theorem thousand_le_DBL_MAX : (1000 : ℚ) ≤ DBL_MAX := by
  unfold DBL_MAX
  norm_num

theorem boundedCoords_of_small {x y z : List ℚ} {n : ℕ}
    (h : ∀ i, i < n →
      -1000 ≤ x.getD i 0 ∧ x.getD i 0 ≤ 1000 ∧
      -1000 ≤ y.getD i 0 ∧ y.getD i 0 ≤ 1000 ∧
      -1000 ≤ z.getD i 0 ∧ z.getD i 0 ≤ 1000) : boundedCoords x y z n := by
  intro i hi
  obtain ⟨hx1, hx2, hy1, hy2, hz1, hz2⟩ := h i hi
  have hd := thousand_le_DBL_MAX
  refine ⟨by linarith, by linarith, by linarith, by linarith, by linarith, by linarith⟩

/-- Invariants of a freshly built tree: the cache is a permutation of the
caller's points tagged with their original indices, the leaves enumerate the
cache slots `0..n-1` in order, and the split invariant holds from the root. -/
theorem build_invariants (x y z : List ℚ) (n : ℕ) (hn : 2 ≤ n) :
    (kdtree_build x y z n).points.length = n ∧
    (kdtree_build x y z n).points.Perm ((List.range n).map
      (fun i => (⟨x.getD i 0, y.getD i 0, z.getD i 0, i⟩ : data_point))) ∧
    (kdtree_build x y z n).root.leafList = List.range n ∧
    treeInv (kdtree_build x y z n).points (kdtree_build x y z n).root 0 := by
  set cache := cache_points (List.replicate n dp0) x y z n with hcache_def
  have hclen : cache.length = n := by
    rw [hcache_def, cache_points_length, List.length_replicate]
  obtain ⟨⟨hplen, htk, hdr⟩, hperm, hleaf, hinv⟩ :=
    build_spec (n - 1) 0 (n - 1) 0 cache (by omega) (by rw [hclen]; omega) (by omega)
  have hpts : (kdtree_build x y z n).points =
      (build_kdtree (n - 1) cache 0 (n - 1) 0).2 := rfl
  have hroot : (kdtree_build x y z n).root =
      (build_kdtree (n - 1) cache 0 (n - 1) 0).1 := rfl
  rw [hpts, hroot]
  have hn1 : n - 1 - 0 + 1 = n := by omega
  rw [hn1] at hperm hleaf
  refine ⟨by rw [hplen, hclen], ?_, ?_, hinv⟩
  · rw [subrange_full (by rw [hplen, hclen]), subrange_full hclen] at hperm
    rw [← cache_points_eq (show (List.replicate n dp0).length = n from
      List.length_replicate n dp0)]
    exact hperm
  · rw [hleaf, List.range_eq_range']

/-- Master correctness of `kdtree_search_space` over a freshly built tree:
the reported indices are a permutation of the original indices whose points
lie inside the box, inclusively.  Coordinates are assumed finite (all finite
doubles lie in `[-DBL_MAX, DBL_MAX]`, the code's initial search domain). -/
theorem search_result_perm (x y z : List ℚ) (n : ℕ)
    (x_min x_max y_min y_max z_min z_max : ℚ) (hn : 2 ≤ n)
    (hb : boundedCoords x y z n) :
    (kdtree_search_space (kdtree_build x y z n)
      x_min x_max y_min y_max z_min z_max).Perm
      ((List.range n).filter (inBox x y z x_min x_max y_min y_max z_min z_max)) := by
  obtain ⟨hplen, hperm, hleaf, hinv⟩ := build_invariants x y z n hn
  set T := kdtree_build x y z n with hT_def
  set ss : space := ⟨⟨x_min, x_max⟩, ⟨y_min, y_max⟩, ⟨z_min, z_max⟩⟩ with hss_def
  set D0 : space := ⟨⟨-DBL_MAX, DBL_MAX⟩, ⟨-DBL_MAX, DBL_MAX⟩,
    ⟨-DBL_MAX, DBL_MAX⟩⟩ with hD0_def
  have hdom : ∀ i ∈ T.root.leafList, inSpace (getPoint T.points i) D0 := by
    intro i hi
    rw [hleaf, List.mem_range] at hi
    have hilen : i < T.points.length := by rw [hplen]; exact hi
    have hmem : getPoint T.points i ∈ T.points := by
      rw [getPoint_eq_getElem hilen]
      exact List.getElem_mem _
    have hmem2 := hperm.mem_iff.mp hmem
    rw [List.mem_map] at hmem2
    obtain ⟨j, hj, hje⟩ := hmem2
    rw [List.mem_range] at hj
    obtain ⟨hx1, hx2, hy1, hy2, hz1, hz2⟩ := hb j hj
    rw [inSpace_def, ← hje]
    exact ⟨⟨hx1, hx2⟩, ⟨hy1, hy2⟩, ⟨hz1, hz2⟩⟩
  cases hr : T.root with
  | leaf i =>
    exfalso
    rw [hr] at hleaf
    have hlength := congrArg List.length hleaf
    simp only [tree_node.leafList, List.length_cons, List.length_nil,
      List.length_range] at hlength
    omega
  | branch s l r =>
    rw [hr] at hinv hdom hleaf
    have hsearch : kdtree_search_space T x_min x_max y_min y_max z_min z_max =
        search_kdtree T.points (.branch s l r) 0 ss D0 := by
      rw [← hr]
      rfl
    rw [hsearch, search_spec T.points s l r 0 ss D0 hinv hdom, hleaf]
    have hstep : (List.range n).filterMap (leafReport T.points ss) =
        T.points.filterMap (pointReport ss) := by
      conv_rhs => rw [← range_map_getPoint T.points]
      rw [List.filterMap_map, hplen]
      rfl
    rw [hstep]
    refine (hperm.filterMap (pointReport ss)).trans ?_
    rw [List.filterMap_map]
    rw [show (pointReport ss ∘ fun i =>
        (⟨x.getD i 0, y.getD i 0, z.getD i 0, i⟩ : data_point)) =
        (fun i => if inBox x y z x_min x_max y_min y_max z_min z_max i
          then some i else none) from rfl]
    rw [filterMap_if_eq_filter]

/-! ### The accumulated search domains (C4 machinery) -/

theorem domains_bound_of_treeInv (pts : List data_point) : ∀ (node : tree_node)
    (d : ℕ) (D : space), treeInv pts node d →
    (∀ i ∈ node.leafList, inSpace (getPoint pts i) D) →
    domains_bound pts node d D := by
  intro node
  induction node with
  | leaf i =>
    intro d D hinv hdom
    exact hdom i (by simp [tree_node.leafList])
  | branch s l r ihl ihr =>
    intro d D hinv hdom
    obtain ⟨hinvl, hinvr, hbl, hbr⟩ := hinv
    refine ⟨hdom, ihl (d + 1) _ hinvl ?_, ihr (d + 1) _ hinvr ?_⟩
    · intro i hi
      refine inSpace_setMax ?_ (Nat.mod_lt _ (by omega)) (hbl i hi)
      exact hdom i (by
        simp only [tree_node.leafList, List.mem_append]; exact Or.inl hi)
    · intro i hi
      refine inSpace_setMin ?_ (Nat.mod_lt _ (by omega)) (hbr i hi)
      exact hdom i (by
        simp only [tree_node.leafList, List.mem_append]; exact Or.inr hi)

/-! ### Iterator consumption -/

theorem get_next_exhausted {it : kdtree_iterator} (h : it.current = it.size) :
    kdtree_iterator_get_next it = (KDTREE_END, it) := by
  simp [kdtree_iterator_get_next, h]

theorem nexts_exhausted {it : kdtree_iterator} (h : it.current = it.size) :
    ∀ k, nexts it k = it := by
  intro k
  induction k with
  | zero => rfl
  | succ k ih => rw [nexts, ih, get_next_exhausted h]

theorem drain_all (data : List ℕ) : ∀ (k c : ℕ), c + k ≤ data.length →
    drain ⟨data, data.length, c⟩ k = (data.drop c).take k := by
  intro k
  induction k with
  | zero =>
    intro c h
    simp [drain]
  | succ k ih =>
    intro c h
    have hc : c ≠ data.length := by omega
    have hcl : c < data.length := by omega
    rw [drain]
    rw [show kdtree_iterator_get_next ⟨data, data.length, c⟩ =
        (data.getD c 0, ⟨data, data.length, c + 1⟩) from by
      simp [kdtree_iterator_get_next, hc]]
    rw [ih (c + 1) (by omega), List.getD_eq_getElem _ _ hcl,
      List.drop_eq_getElem_cons hcl, List.take_succ_cons]

/-! ### Search through the iterator interface -/

theorem search_iter_eq (tree : kdtree) (prev : Option kdtree_iterator)
    (x_min x_max y_min y_max z_min z_max : ℚ) :
    kdtree_search_space_iter tree prev x_min x_max y_min y_max z_min z_max =
      ⟨kdtree_search_space tree x_min x_max y_min y_max z_min z_max,
       (kdtree_search_space tree x_min x_max y_min y_max z_min z_max).length,
       0⟩ := by
  have hfold : ∀ (L : List ℕ) (d0 : List ℕ) (s c : ℕ),
      L.foldl iterator_push ⟨d0, s, c⟩ = ⟨d0 ++ L, s + L.length, c⟩ := by
    intro L
    induction L with
    | nil =>
      intro d0 s c
      simp
    | cons a L ih =>
      intro d0 s c
      rw [List.foldl_cons,
        show iterator_push ⟨d0, s, c⟩ a = ⟨d0 ++ [a], s + 1, c⟩ from rfl, ih]
      have h1 : (d0 ++ [a]) ++ L = d0 ++ a :: L := by
        rw [List.append_assoc, List.singleton_append]
      have h2 : s + 1 + L.length = s + (a :: L).length := by
        rw [List.length_cons]; omega
      rw [h1, h2]
  cases prev with
  | none =>
    show List.foldl iterator_push iterator_new
      (kdtree_search_space tree x_min x_max y_min y_max z_min z_max) = _
    rw [show (iterator_new : kdtree_iterator) = ⟨[], 0, 0⟩ from rfl, hfold]
    simp
  | some it =>
    show List.foldl iterator_push (iterator_reset it)
      (kdtree_search_space tree x_min x_max y_min y_max z_min z_max) = _
    rw [show iterator_reset it = ⟨[], 0, 0⟩ from rfl, hfold]
    simp

theorem cache_points_irrel {pts pts' : List data_point} {x y z : List ℚ} {n : ℕ}
    (h : pts.length = n) (h' : pts'.length = n) :
    cache_points pts x y z n = cache_points pts' x y z n := by
  rw [cache_points_eq h, cache_points_eq h']

/-- Points of a freshly built tree all lie in the code's initial search domain
`[-DBL_MAX, DBL_MAX]^3`, given finite input coordinates. -/
theorem built_points_in_D0 (x y z : List ℚ) (n : ℕ) (hn : 2 ≤ n)
    (hb : boundedCoords x y z n) :
    ∀ i ∈ (kdtree_build x y z n).root.leafList,
      inSpace (getPoint (kdtree_build x y z n).points i)
        ⟨⟨-DBL_MAX, DBL_MAX⟩, ⟨-DBL_MAX, DBL_MAX⟩, ⟨-DBL_MAX, DBL_MAX⟩⟩ := by
  obtain ⟨hplen, hperm, hleaf, hinv⟩ := build_invariants x y z n hn
  intro i hi
  rw [hleaf, List.mem_range] at hi
  have hilen : i < (kdtree_build x y z n).points.length := by rw [hplen]; exact hi
  have hmem : getPoint (kdtree_build x y z n).points i ∈
      (kdtree_build x y z n).points := by
    rw [getPoint_eq_getElem hilen]
    exact List.getElem_mem _
  have hmem2 := hperm.mem_iff.mp hmem
  rw [List.mem_map] at hmem2
  obtain ⟨j, hj, hje⟩ := hmem2
  rw [List.mem_range] at hj
  obtain ⟨hx1, hx2, hy1, hy2, hz1, hz2⟩ := hb j hj
  rw [inSpace_def, ← hje]
  exact ⟨⟨hx1, hx2⟩, ⟨hy1, hy2⟩, ⟨hz1, hz2⟩⟩

/-! ### The claims -/

/-- C1: for every tree built from a point set of size `n ≥ 2` (with finite
coordinates) and every query box, `kdtree_search_space` fills the iterator with
exactly the set of original indices whose point lies within the box on all
three axes, with inclusive comparisons on every bound — so a point sitting
exactly on a box boundary is included. -/
theorem kd3_c1 (x y z : List ℚ) (n : ℕ)
    (x_min x_max y_min y_max z_min z_max : ℚ) (hn : 2 ≤ n)
    (hb : boundedCoords x y z n) :
    (↑(kdtree_search_space (kdtree_build x y z n)
        x_min x_max y_min y_max z_min z_max) : Multiset ℕ) =
      ↑((List.range n).filter
        (inBox x y z x_min x_max y_min y_max z_min z_max)) :=
  Multiset.coe_eq_coe.mpr
    (search_result_perm x y z n x_min x_max y_min y_max z_min z_max hn hb)

theorem kd3_c1_witness :
    (2 ≤ 2 ∧ boundedCoords [0, 1] [0, 1] [0, 1] 2) ∧
    (↑(kdtree_search_space (kdtree_build [0, 1] [0, 1] [0, 1] 2)
        1 2 0 2 0 2) : Multiset ℕ) =
      ↑((List.range 2).filter (inBox [0, 1] [0, 1] [0, 1] 1 2 0 2 0 2)) :=
  ⟨⟨by omega, boundedCoords_of_small (by decide)⟩,
    kd3_c1 [0, 1] [0, 1] [0, 1] 2 1 2 0 2 0 2 (by omega)
      (boundedCoords_of_small (by decide))⟩

/-- C2: the tree built from `n ≥ 2` points has exactly `n` leaves and `n - 1`
branches (`2n - 1` nodes); the leaves reference the cache slots `0..n-1`
exactly once each, and the original indices reachable through the leaves are a
permutation of `0..n-1` — a bijection. -/
theorem kd3_c2 (x y z : List ℚ) (n : ℕ) (hn : 2 ≤ n) :
    (kdtree_build x y z n).root.numLeaves = n ∧
    (kdtree_build x y z n).root.numBranches = n - 1 ∧
    (kdtree_build x y z n).root.numNodes = 2 * n - 1 ∧
    (kdtree_build x y z n).root.leafList = List.range n ∧
    ((kdtree_build x y z n).root.leafList.map
      (fun i => (getPoint (kdtree_build x y z n).points i).idx)).Perm
      (List.range n) := by
  obtain ⟨hplen, hperm, hleaf, hinv⟩ := build_invariants x y z n hn
  have hleaves : (kdtree_build x y z n).root.numLeaves = n := by
    rw [numLeaves_eq_length_leafList, hleaf, List.length_range]
  have h1 := numLeaves_eq_numBranches_add_one (kdtree_build x y z n).root
  have h2 := numNodes_eq_add (kdtree_build x y z n).root
  refine ⟨hleaves, by omega, by omega, hleaf, ?_⟩
  rw [hleaf]
  have h3 : (List.range n).map
      (fun i => (getPoint (kdtree_build x y z n).points i).idx) =
      (kdtree_build x y z n).points.map data_point.idx := by
    conv_rhs => rw [← range_map_getPoint (kdtree_build x y z n).points]
    rw [List.map_map, hplen]
    rfl
  rw [h3]
  refine (hperm.map data_point.idx).trans ?_
  rw [List.map_map]
  rw [show (data_point.idx ∘ fun i =>
      (⟨x.getD i 0, y.getD i 0, z.getD i 0, i⟩ : data_point)) = id from rfl]
  rw [List.map_id]

theorem kd3_c2_witness :
    2 ≤ 2 ∧
    ((kdtree_build [0, 1] [2, 3] [4, 5] 2).root.numLeaves = 2 ∧
     (kdtree_build [0, 1] [2, 3] [4, 5] 2).root.numBranches = 2 - 1 ∧
     (kdtree_build [0, 1] [2, 3] [4, 5] 2).root.numNodes = 2 * 2 - 1 ∧
     (kdtree_build [0, 1] [2, 3] [4, 5] 2).root.leafList = List.range 2 ∧
     ((kdtree_build [0, 1] [2, 3] [4, 5] 2).root.leafList.map
       (fun i => (getPoint (kdtree_build [0, 1] [2, 3] [4, 5] 2).points i).idx)).Perm
       (List.range 2)) :=
  ⟨by omega, kd3_c2 [0, 1] [2, 3] [4, 5] 2 (by omega)⟩

/-- C3: the builder uses split axis `depth mod 3`; a one-point sub-range
returns a leaf referencing that slot; otherwise it sorts the sub-range in
place by the axis coordinate, takes `mid = from + (to - from) / 2`, splits at
the axis coordinate of the element now at `mid`, and recursively builds
`[from, mid]` and `[mid+1, to]` at `depth + 1`, the two subtree sizes
differing by at most one point. -/
theorem kd3_c3 (pts : List data_point) (f t d fuel : ℕ)
    (hft : f ≤ t) (htl : t < pts.length) (hfu : t - f ≤ fuel + 1) :
    (t = f → build_kdtree (fuel + 1) pts f t d = (.leaf f, pts)) ∧
    (f < t →
      build_kdtree (fuel + 1) pts f t d =
        (tree_node.branch
          (coord (d % 3) (getPoint (sortSubrange pts f (t - f + 1) (d % 3))
            (f + (t - f) / 2)))
          (build_kdtree fuel (sortSubrange pts f (t - f + 1) (d % 3)) f
            (f + (t - f) / 2) (d + 1)).1
          (build_kdtree fuel
            (build_kdtree fuel (sortSubrange pts f (t - f + 1) (d % 3)) f
              (f + (t - f) / 2) (d + 1)).2
            (f + (t - f) / 2 + 1) t (d + 1)).1,
         (build_kdtree fuel
            (build_kdtree fuel (sortSubrange pts f (t - f + 1) (d % 3)) f
              (f + (t - f) / 2) (d + 1)).2
            (f + (t - f) / 2 + 1) t (d + 1)).2) ∧
      List.Sorted (axis_le (d % 3))
        (subrange (sortSubrange pts f (t - f + 1) (d % 3)) f (t - f + 1)) ∧
      (subrange (sortSubrange pts f (t - f + 1) (d % 3)) f (t - f + 1)).Perm
        (subrange pts f (t - f + 1)) ∧
      (build_kdtree fuel (sortSubrange pts f (t - f + 1) (d % 3)) f
        (f + (t - f) / 2) (d + 1)).1.numLeaves = (t - f) / 2 + 1 ∧
      (build_kdtree fuel
        (build_kdtree fuel (sortSubrange pts f (t - f + 1) (d % 3)) f
          (f + (t - f) / 2) (d + 1)).2
        (f + (t - f) / 2 + 1) t (d + 1)).1.numLeaves = t - f - (t - f) / 2 ∧
      (build_kdtree fuel (sortSubrange pts f (t - f + 1) (d % 3)) f
        (f + (t - f) / 2) (d + 1)).1.numLeaves ≤
        (build_kdtree fuel
          (build_kdtree fuel (sortSubrange pts f (t - f + 1) (d % 3)) f
            (f + (t - f) / 2) (d + 1)).2
          (f + (t - f) / 2 + 1) t (d + 1)).1.numLeaves + 1 ∧
      (build_kdtree fuel
        (build_kdtree fuel (sortSubrange pts f (t - f + 1) (d % 3)) f
          (f + (t - f) / 2) (d + 1)).2
        (f + (t - f) / 2 + 1) t (d + 1)).1.numLeaves ≤
        (build_kdtree fuel (sortSubrange pts f (t - f + 1) (d % 3)) f
          (f + (t - f) / 2) (d + 1)).1.numLeaves + 1) := by
  constructor
  · intro h
    subst h
    exact build_eq_leaf (le_refl _)
  · intro hlt
    have hf1 : f + (t - f + 1) ≤ pts.length := by omega
    have hdiv : (t - f) / 2 < t - f := Nat.div_lt_self (by omega) (by omega)
    set mid := f + (t - f) / 2 with hmid_def
    set pts1 := sortSubrange pts f (t - f + 1) (d % 3) with hpts1_def
    set lres := build_kdtree fuel pts1 f mid (d + 1) with hlres_def
    set rres := build_kdtree fuel lres.2 (mid + 1) t (d + 1) with hrres_def
    have hlen1 : pts1.length = pts.length := sortSubrange_length hf1
    obtain ⟨⟨hlen2, _, _⟩, _, hleafl, _⟩ :
        (lres.2.length = pts1.length ∧ lres.2.take f = pts1.take f ∧
          lres.2.drop (mid + 1) = pts1.drop (mid + 1)) ∧
        (subrange lres.2 f (mid - f + 1)).Perm (subrange pts1 f (mid - f + 1)) ∧
        lres.1.leafList = List.range' f (mid - f + 1) ∧
        treeInv lres.2 lres.1 (d + 1) :=
      build_spec fuel f mid (d + 1) pts1 (by omega) (by rw [hlen1]; omega)
        (by omega)
    obtain ⟨_, _, hleafr, _⟩ :
        (rres.2.length = lres.2.length ∧
          rres.2.take (mid + 1) = lres.2.take (mid + 1) ∧
          rres.2.drop (t + 1) = lres.2.drop (t + 1)) ∧
        (subrange rres.2 (mid + 1) (t - (mid + 1) + 1)).Perm
          (subrange lres.2 (mid + 1) (t - (mid + 1) + 1)) ∧
        rres.1.leafList = List.range' (mid + 1) (t - (mid + 1) + 1) ∧
        treeInv rres.2 rres.1 (d + 1) :=
      build_spec fuel (mid + 1) t (d + 1) lres.2 (by omega)
        (by rw [hlen2, hlen1]; omega) (by omega)
    have hnl : lres.1.numLeaves = (t - f) / 2 + 1 := by
      rw [numLeaves_eq_length_leafList, hleafl, List.length_range']
      omega
    have hnr : rres.1.numLeaves = t - f - (t - f) / 2 := by
      rw [numLeaves_eq_length_leafList, hleafr, List.length_range']
      omega
    refine ⟨build_eq_branch hlt, ?_, ?_, hnl, hnr, by omega, by omega⟩
    · rw [sortSubrange_subrange hf1]
      exact List.sorted_insertionSort _ _
    · rw [sortSubrange_subrange hf1]
      exact List.perm_insertionSort _ _

theorem kd3_c3_witness :
    ((0 : ℕ) ≤ 3 ∧ (3 : ℕ) <
      [(⟨3, 0, 0, 0⟩ : data_point), ⟨1, 5, 0, 1⟩, ⟨2, 2, 7, 2⟩,
        ⟨0, 1, 1, 3⟩].length ∧ 3 - 0 ≤ 3 + 1) ∧
    (0 < 3 →
      build_kdtree (3 + 1)
        [(⟨3, 0, 0, 0⟩ : data_point), ⟨1, 5, 0, 1⟩, ⟨2, 2, 7, 2⟩, ⟨0, 1, 1, 3⟩]
        0 3 0 =
      (tree_node.branch
        (coord (0 % 3) (getPoint (sortSubrange
          [(⟨3, 0, 0, 0⟩ : data_point), ⟨1, 5, 0, 1⟩, ⟨2, 2, 7, 2⟩, ⟨0, 1, 1, 3⟩]
          0 (3 - 0 + 1) (0 % 3)) (0 + (3 - 0) / 2)))
        (build_kdtree 3 (sortSubrange
          [(⟨3, 0, 0, 0⟩ : data_point), ⟨1, 5, 0, 1⟩, ⟨2, 2, 7, 2⟩, ⟨0, 1, 1, 3⟩]
          0 (3 - 0 + 1) (0 % 3)) 0 (0 + (3 - 0) / 2) (0 + 1)).1
        (build_kdtree 3
          (build_kdtree 3 (sortSubrange
            [(⟨3, 0, 0, 0⟩ : data_point), ⟨1, 5, 0, 1⟩, ⟨2, 2, 7, 2⟩,
              ⟨0, 1, 1, 3⟩] 0 (3 - 0 + 1) (0 % 3)) 0 (0 + (3 - 0) / 2)
            (0 + 1)).2
          (0 + (3 - 0) / 2 + 1) 3 (0 + 1)).1,
       (build_kdtree 3
          (build_kdtree 3 (sortSubrange
            [(⟨3, 0, 0, 0⟩ : data_point), ⟨1, 5, 0, 1⟩, ⟨2, 2, 7, 2⟩,
              ⟨0, 1, 1, 3⟩] 0 (3 - 0 + 1) (0 % 3)) 0 (0 + (3 - 0) / 2)
            (0 + 1)).2
          (0 + (3 - 0) / 2 + 1) 3 (0 + 1)).2)) :=
  ⟨⟨by omega, by decide, by omega⟩,
    fun h => ((kd3_c3
      [(⟨3, 0, 0, 0⟩ : data_point), ⟨1, 5, 0, 1⟩, ⟨2, 2, 7, 2⟩, ⟨0, 1, 1, 3⟩]
      0 3 0 3 (by omega) (by decide) (by omega)).2 h).1⟩

/-- C4: during every search the accumulated domain handed to a subtree bounds
every point reachable under it (left children clamp the axis max to the split,
right children the axis min); consequently the enclosure short-circuit reports
only points inside the box, and pruning a non-intersecting subtree skips no
matching point. -/
theorem kd3_c4 (x y z : List ℚ) (n : ℕ)
    (x_min x_max y_min y_max z_min z_max : ℚ) (hn : 2 ≤ n)
    (hb : boundedCoords x y z n) :
    domains_bound (kdtree_build x y z n).points (kdtree_build x y z n).root 0
      ⟨⟨-DBL_MAX, DBL_MAX⟩, ⟨-DBL_MAX, DBL_MAX⟩, ⟨-DBL_MAX, DBL_MAX⟩⟩ ∧
    (∀ (node : tree_node) (D : space),
      (∀ i ∈ node.leafList,
        inSpace (getPoint (kdtree_build x y z n).points i) D) →
      completely_enclosed ⟨⟨x_min, x_max⟩, ⟨y_min, y_max⟩, ⟨z_min, z_max⟩⟩ D
        = true →
      ∀ v ∈ report_all_leaves (kdtree_build x y z n).points node,
        ∃ i ∈ node.leafList,
          v = (getPoint (kdtree_build x y z n).points i).idx ∧
          point_in_search_space (getPoint (kdtree_build x y z n).points i)
            ⟨⟨x_min, x_max⟩, ⟨y_min, y_max⟩, ⟨z_min, z_max⟩⟩ = true) ∧
    (∀ (node : tree_node) (D : space),
      (∀ i ∈ node.leafList,
        inSpace (getPoint (kdtree_build x y z n).points i) D) →
      search_area_intersects ⟨⟨x_min, x_max⟩, ⟨y_min, y_max⟩, ⟨z_min, z_max⟩⟩ D
        = false →
      ∀ i ∈ node.leafList,
        point_in_search_space (getPoint (kdtree_build x y z n).points i)
          ⟨⟨x_min, x_max⟩, ⟨y_min, y_max⟩, ⟨z_min, z_max⟩⟩ = false) := by
  obtain ⟨hplen, hperm, hleaf, hinv⟩ := build_invariants x y z n hn
  refine ⟨domains_bound_of_treeInv _ _ _ _ hinv
    (built_points_in_D0 x y z n hn hb), ?_, ?_⟩
  · intro node D hdom henc v hv
    rw [report_all_leaves_eq, List.mem_map] at hv
    obtain ⟨i, hi, rfl⟩ := hv
    exact ⟨i, hi, rfl, point_in_of_enclosed (hdom i hi) henc⟩
  · intro node D hdom hni i hi
    exact point_not_in_of_no_intersect (hdom i hi) hni

theorem kd3_c4_witness :
    (2 ≤ 2 ∧ boundedCoords [0, 1] [0, 1] [0, 1] 2) ∧
    domains_bound (kdtree_build [0, 1] [0, 1] [0, 1] 2).points
      (kdtree_build [0, 1] [0, 1] [0, 1] 2).root 0
      ⟨⟨-DBL_MAX, DBL_MAX⟩, ⟨-DBL_MAX, DBL_MAX⟩, ⟨-DBL_MAX, DBL_MAX⟩⟩ :=
  ⟨⟨by omega, boundedCoords_of_small (by decide)⟩,
    (kd3_c4 [0, 1] [0, 1] [0, 1] 2 0 1 0 1 0 1 (by omega)
      (boundedCoords_of_small (by decide))).1⟩

/-- C5: a build with `count ≥ 2` allocates exactly `2*count - 1` nodes, which
is exactly the arena capacity `max_nodes`, so the bump cursor of `_next_node`
(taking values `0, 1, ..., numNodes - 1`) always satisfies the assertion
`next_node < max_nodes`. -/
theorem kd3_c5 (x y z : List ℚ) (n : ℕ) (hn : 2 ≤ n) :
    (kdtree_build x y z n).max_nodes = 2 * n - 1 ∧
    (kdtree_build x y z n).root.numNodes = (kdtree_build x y z n).max_nodes ∧
    (∀ k, k < (kdtree_build x y z n).root.numNodes →
      k < (kdtree_build x y z n).max_nodes) := by
  obtain ⟨hplen, hperm, hleaf, hinv⟩ := build_invariants x y z n hn
  have hmax : (kdtree_build x y z n).max_nodes = (n - 1) * 2 + 1 := rfl
  have hleaves : (kdtree_build x y z n).root.numLeaves = n := by
    rw [numLeaves_eq_length_leafList, hleaf, List.length_range]
  have h1 := numLeaves_eq_numBranches_add_one (kdtree_build x y z n).root
  have h2 := numNodes_eq_add (kdtree_build x y z n).root
  exact ⟨by omega, by omega, by omega⟩

theorem kd3_c5_witness :
    2 ≤ 2 ∧
    ((kdtree_build [0, 1] [2, 3] [4, 5] 2).max_nodes = 2 * 2 - 1 ∧
     (kdtree_build [0, 1] [2, 3] [4, 5] 2).root.numNodes =
       (kdtree_build [0, 1] [2, 3] [4, 5] 2).max_nodes ∧
     (∀ k, k < (kdtree_build [0, 1] [2, 3] [4, 5] 2).root.numNodes →
       k < (kdtree_build [0, 1] [2, 3] [4, 5] 2).max_nodes)) :=
  ⟨by omega, kd3_c5 [0, 1] [2, 3] [4, 5] 2 (by omega)⟩

/-- C6: rebuilding through a handle whose recorded count equals the new count
reuses the tree record and arena in place (same `max_nodes`), overwrites every
point-cache slot `i` with `(x[i], y[i], z[i], i)`, and subsequent searches are
correct for the new coordinates with no stale data. -/
theorem kd3_c6 (prev : kdtree) (x y z : List ℚ) (n : ℕ)
    (hcount : prev.count = n) (hplen : prev.points.length = n) (hn : 2 ≤ n)
    (hb : boundedCoords x y z n) :
    kdtree_build_handle (some prev) x y z n =
      ⟨n, prev.max_nodes, (kdtree_build x y z n).points,
        (kdtree_build x y z n).root⟩ ∧
    (∀ i, i < n → getPoint (cache_points prev.points x y z n) i =
      ⟨x.getD i 0, y.getD i 0, z.getD i 0, i⟩) ∧
    (∀ x_min x_max y_min y_max z_min z_max : ℚ,
      (↑(kdtree_search_space (kdtree_build_handle (some prev) x y z n)
          x_min x_max y_min y_max z_min z_max) : Multiset ℕ) =
        ↑((List.range n).filter
          (inBox x y z x_min x_max y_min y_max z_min z_max))) := by
  have hcc : cache_points prev.points x y z n =
      cache_points (List.replicate n dp0) x y z n :=
    cache_points_irrel hplen (List.length_replicate n dp0)
  have hrec : kdtree_build_handle (some prev) x y z n =
      ⟨n, prev.max_nodes, (kdtree_build x y z n).points,
        (kdtree_build x y z n).root⟩ := by
    simp only [kdtree_build_handle]
    rw [if_pos hcount, hcc]
    rfl
  refine ⟨hrec, ?_, ?_⟩
  · intro i hi
    exact cache_points_getPoint hi (by omega)
  · intro a b c u v w
    have hp := search_result_perm x y z n a b c u v w hn hb
    rw [hrec]
    have hmid : kdtree_search_space
        (⟨n, prev.max_nodes, (kdtree_build x y z n).points,
          (kdtree_build x y z n).root⟩ : kdtree) a b c u v w =
        kdtree_search_space (kdtree_build x y z n) a b c u v w := rfl
    rw [hmid]
    exact Multiset.coe_eq_coe.mpr hp

theorem kd3_c6_witness :
    ((kdtree_build [5, 6] [5, 6] [5, 6] 2).count = 2 ∧
      (kdtree_build [5, 6] [5, 6] [5, 6] 2).points.length = 2 ∧
      2 ≤ 2 ∧ boundedCoords [0, 1] [0, 1] [0, 1] 2) ∧
    kdtree_build_handle (some (kdtree_build [5, 6] [5, 6] [5, 6] 2))
        [0, 1] [0, 1] [0, 1] 2 =
      ⟨2, (kdtree_build [5, 6] [5, 6] [5, 6] 2).max_nodes,
        (kdtree_build [0, 1] [0, 1] [0, 1] 2).points,
        (kdtree_build [0, 1] [0, 1] [0, 1] 2).root⟩ :=
  ⟨⟨rfl, by decide, by omega, boundedCoords_of_small (by decide)⟩,
    (kd3_c6 (kdtree_build [5, 6] [5, 6] [5, 6] 2) [0, 1] [0, 1] [0, 1] 2
      rfl (by decide) (by omega) (boundedCoords_of_small (by decide))).1⟩

/-- C7: the cube search with centre `(x, y, z)` and apothem `a ≥ 0` produces
exactly the same result as the box search over
`[x-a, x+a] × [y-a, y+a] × [z-a, z+a]`. -/
theorem kd3_c7 (tree : kdtree) (x y z apothem : ℚ) (h : 0 ≤ apothem) :
    kdtree_search tree x y z apothem =
      kdtree_search_space tree (x - apothem) (x + apothem) (y - apothem)
        (y + apothem) (z - apothem) (z + apothem) := rfl

theorem kd3_c7_witness :
    (0 : ℚ) ≤ 1 ∧
    kdtree_search (kdtree_build [0, 1] [0, 1] [0, 1] 2) 0 0 0 1 =
      kdtree_search_space (kdtree_build [0, 1] [0, 1] [0, 1] 2)
        (0 - 1) (0 + 1) (0 - 1) (0 + 1) (0 - 1) (0 + 1) :=
  ⟨by norm_num, kd3_c7 (kdtree_build [0, 1] [0, 1] [0, 1] 2) 0 0 0 1
    (by norm_num)⟩

/-- C8: `next` returns the element at the cursor and advances it by one; once
`cursor == size` it returns `KDTREE_END`, and every further call returns the
sentinel without changing the state; `rewind` resets only the cursor to 0, so
consumption replays the stored sequence from the first element. -/
theorem kd3_c8 (it : kdtree_iterator) :
    (it.current ≠ it.size →
      kdtree_iterator_get_next it =
        (it.data.getD it.current 0, ⟨it.data, it.size, it.current + 1⟩)) ∧
    (it.current = it.size →
      ∀ k, nexts it k = it ∧
        kdtree_iterator_get_next (nexts it k) = (KDTREE_END, it)) ∧
    kdtree_iterator_rewind it = ⟨it.data, it.size, 0⟩ ∧
    (it.size = it.data.length →
      drain (kdtree_iterator_rewind it) it.size = it.data) := by
  refine ⟨?_, ?_, rfl, ?_⟩
  · intro h
    simp [kdtree_iterator_get_next, h]
  · intro h k
    refine ⟨nexts_exhausted h k, ?_⟩
    rw [nexts_exhausted h k, get_next_exhausted h]
  · intro hwf
    have h1 : kdtree_iterator_rewind it = ⟨it.data, it.data.length, 0⟩ := by
      show (⟨it.data, it.size, 0⟩ : kdtree_iterator) = _
      rw [hwf]
    rw [h1, hwf, drain_all it.data it.data.length 0 (by omega)]
    simp

theorem kd3_c8_witness :
    (((⟨[5, 7], 2, 1⟩ : kdtree_iterator).current ≠ 2) ∧
      kdtree_iterator_get_next ⟨[5, 7], 2, 1⟩ = (7, ⟨[5, 7], 2, 2⟩)) ∧
    (((⟨[5, 7], 2, 2⟩ : kdtree_iterator).current = 2) ∧
      nexts ⟨[5, 7], 2, 2⟩ 3 = ⟨[5, 7], 2, 2⟩ ∧
      kdtree_iterator_get_next (nexts ⟨[5, 7], 2, 2⟩ 3) =
        (KDTREE_END, ⟨[5, 7], 2, 2⟩)) ∧
    drain (kdtree_iterator_rewind ⟨[5, 7], 2, 2⟩) 2 = [5, 7] := by
  have h1 := (kd3_c8 ⟨[5, 7], 2, 1⟩).1 (by decide)
  have h2 := (kd3_c8 ⟨[5, 7], 2, 2⟩).2.1 rfl 3
  have h3 := (kd3_c8 ⟨[5, 7], 2, 2⟩).2.2.2 rfl
  exact ⟨⟨by decide, by simpa using h1⟩, ⟨rfl, h2.1, h2.2⟩, by simpa using h3⟩

/-- C9: search is deterministic and independent of the incoming iterator
state — any two searches of the same box against the same tree leave the same
data (hence the same multiset of indices) in the iterator. -/
theorem kd3_c9 (tree : kdtree) (x_min x_max y_min y_max z_min z_max : ℚ)
    (prev1 prev2 : Option kdtree_iterator) :
    (kdtree_search_space_iter tree prev1
        x_min x_max y_min y_max z_min z_max).data =
      (kdtree_search_space_iter tree prev2
        x_min x_max y_min y_max z_min z_max).data ∧
    (kdtree_search_space_iter tree prev1
        x_min x_max y_min y_max z_min z_max).size =
      (kdtree_search_space_iter tree prev2
        x_min x_max y_min y_max z_min z_max).size ∧
    (↑(kdtree_search_space_iter tree prev1
        x_min x_max y_min y_max z_min z_max).data : Multiset ℕ) =
      ↑(kdtree_search_space tree x_min x_max y_min y_max z_min z_max) := by
  rw [search_iter_eq, search_iter_eq]
  exact ⟨rfl, rfl, rfl⟩

/-- C10: `kdtree_build` only reads the caller's coordinate arrays: threaded as
state through the embedding of the call, they come back unchanged (all sorting
happens on the tree's private cache copy). -/
theorem kd3_c10 (arrs : caller_arrays) (count : ℕ) (prev : Option kdtree)
    (h : 2 ≤ count) :
    (kdtree_build_withArrays arrs count prev).2.x = arrs.x ∧
    (kdtree_build_withArrays arrs count prev).2.y = arrs.y ∧
    (kdtree_build_withArrays arrs count prev).2.z = arrs.z ∧
    (kdtree_build_withArrays arrs count prev).1 =
      kdtree_build_handle prev arrs.x arrs.y arrs.z count :=
  ⟨rfl, rfl, rfl, rfl⟩

theorem kd3_c10_witness :
    2 ≤ 2 ∧
    ((kdtree_build_withArrays ⟨[0, 1], [2, 3], [4, 5]⟩ 2 none).2.x = [0, 1] ∧
     (kdtree_build_withArrays ⟨[0, 1], [2, 3], [4, 5]⟩ 2 none).2.y = [2, 3] ∧
     (kdtree_build_withArrays ⟨[0, 1], [2, 3], [4, 5]⟩ 2 none).2.z = [4, 5] ∧
     (kdtree_build_withArrays ⟨[0, 1], [2, 3], [4, 5]⟩ 2 none).1 =
       kdtree_build_handle none [0, 1] [2, 3] [4, 5] 2) :=
  ⟨by omega, kd3_c10 ⟨[0, 1], [2, 3], [4, 5]⟩ 2 none (by omega)⟩

end KD3
